import Mathlib

/-
Verification of the file_index_service indexing subsystem.

The definitions below are a shallow embedding of the Python source under
backend/app: index_service.py (Store / Query Engine), scanner.py (Crawler
ignore rule) and routers/admin.py, routers/search.py (endpoint glue).

Modelling conventions:
- Text (paths, names, queries, SQL patterns) is a list of characters.
- SQLite `LIKE` is modelled with its real semantics: `%` and `_` wildcards
  and ASCII case-insensitivity.
- The FTS5 trigram tokenizer case-folds; folding is modelled as ASCII
  lower-casing (the repository scenarios are ASCII).
- Wall-clock times (REAL columns) are modelled as integers; no claim
  depends on fractional time.
- Filesystem paths handed to pathlib are assumed already normalized
  (absolute, single slashes, no "." components); `Path.resolve` is
  modelled as parsing into components.
-/

namespace FileIndex

/-- Text is modelled as a list of characters. -/
abbrev Str := List Char

/-- ASCII lower-casing of one character, as SQLite applies to A-Z in LIKE
and as we model the FTS5 trigram case folding. -/
def lowerChar (c : Char) : Char :=
  if 'A' ≤ c ∧ c ≤ 'Z' then Char.ofNat (c.toNat + 32) else c

/-- ASCII lower-casing of a string. -/
def lowerStr (s : Str) : Str := s.map lowerChar

/-- Contiguous substring test: does `hay` contain `pat`? -/
def containsSub (hay pat : Str) : Bool :=
  if pat.isPrefixOf hay then true
  else match hay with
    | [] => false
    | _ :: t => containsSub t pat

/-- All contiguous windows of length `n` of `s`, in order. -/
def ngrams (n : Nat) : Str → List Str
  | [] => []
  | c :: t =>
    if (c :: t).length < n ∨ n = 0 then []
    else ((c :: t).take n) :: ngrams n t

/-- SQLite LIKE match: pattern against text, `%` matches any sequence
(expressed as trying every suffix of the text), `_` any single character,
ordinary characters compare ASCII case-insensitively. No ESCAPE clause is
used in the source. -/
def likeMatch : Str → Str → Bool
  | [], t => t.isEmpty
  | c :: p, t =>
    if c = '%' then t.tails.any (fun t2 => likeMatch p t2)
    else
      match t with
      | [] => false
      | d :: t' => (decide (c = '_') || (lowerChar c == lowerChar d)) && likeMatch p t'

/-- Split a character-class body at its closing bracket, as
fnmatch.translate scans for the next close bracket. Returns the
class contents and the remainder of the pattern, or none when the class is
never closed. -/
def classBody : Str → Option (Str × Str)
  | [] => none
  | c :: r =>
    if c = ']' then some ([], r)
    else (classBody r).map (fun br => (c :: br.1, br.2))

/-- fnmatch includes a close bracket appearing first in a class literally. -/
def classBodyLead (l : Str) : Option (Str × Str) :=
  if l.head? = some ']' then
    (classBody l.tail).map (fun br => (']' :: br.1, br.2))
  else classBody l

/-- Parse the part of a pattern following an open bracket into
(negated, class contents, rest of pattern), as fnmatch.translate does:
a leading exclamation mark negates, a leading close bracket is literal. -/
def findClass (p : Str) : Option (Bool × Str × Str) :=
  if p.head? = some '!' then (classBodyLead p.tail).map (fun br => (true, br.1, br.2))
  else (classBodyLead p).map (fun br => (false, br.1, br.2))

/-- Membership of a character in a parsed class body, with regex-style
ranges: a dash between two characters denotes a range, a trailing dash is
literal. -/
def inClass (c : Char) : Str → Bool
  | [] => false
  | [a] => c == a
  | a :: '-' :: [] => c == a || c == '-'
  | a :: '-' :: b :: rest => (a ≤ c && c ≤ b) || inClass c rest
  | a :: rest => c == a || inClass c rest

theorem classBody_length_lt : ∀ l b r, classBody l = some (b, r) → r.length < l.length := by
  intro l
  induction l with
  | nil => intro b r h; simp [classBody] at h
  | cons c t ih =>
    intro b r h
    by_cases hc : c = ']'
    · rw [classBody, if_pos hc] at h
      have hr := congrArg (fun o => (o.map Prod.snd)) h
      simp at hr
      subst hr
      simp
    · rw [classBody, if_neg hc, Option.map_eq_some'] at h
      obtain ⟨⟨b', r'⟩, hm, hf⟩ := h
      have hr := congrArg Prod.snd hf
      simp at hr
      subst hr
      have := ih b' r' hm
      simp
      omega

theorem classBodyLead_length_lt : ∀ l b r, classBodyLead l = some (b, r) → r.length < l.length := by
  intro l b r h
  unfold classBodyLead at h
  by_cases hh : l.head? = some ']'
  · rw [if_pos hh, Option.map_eq_some'] at h
    obtain ⟨⟨b', r'⟩, hm, hf⟩ := h
    have hr := congrArg Prod.snd hf
    simp at hr
    subst hr
    have ht := classBody_length_lt l.tail b' r' hm
    rcases l with _ | ⟨c, t⟩
    · simp [classBody] at hm
    · simp at ht ⊢
      omega
  · rw [if_neg hh] at h
    exact classBody_length_lt l b r h

theorem findClass_length_lt : ∀ p n b r, findClass p = some (n, b, r) → r.length < p.length := by
  intro p n b r h
  unfold findClass at h
  by_cases hh : p.head? = some '!'
  · rw [if_pos hh, Option.map_eq_some'] at h
    obtain ⟨⟨b', r'⟩, hm, hf⟩ := h
    have hr := congrArg (fun x => x.2.2) hf
    simp at hr
    subst hr
    have ht := classBodyLead_length_lt p.tail b' r' hm
    rcases p with _ | ⟨c, t⟩
    · simp at hh
    · simp at ht ⊢
      omega
  · rw [if_neg hh, Option.map_eq_some'] at h
    obtain ⟨⟨b', r'⟩, hm, hf⟩ := h
    have hr := congrArg (fun x => x.2.2) hf
    simp at hr
    subst hr
    exact classBodyLead_length_lt p b' r' hm

/-- Python fnmatch glob matching, written with an explicit fuel counter so
that it is structurally recursive: every recursive call consumes a
nonempty piece of the pattern, so any fuel above the pattern length is
enough and the fallback clause is never reached. `*` matches any sequence
(including slashes, expressed as trying every suffix), `?` any single
character, bracket classes as parsed above; other characters literally.
On POSIX, os.path.normcase is the identity, so no case folding happens. -/
def globMatchF : Nat → Str → Str → Bool
  | 0, p, s => p.isEmpty && s.isEmpty
  | fuel + 1, p, s =>
    match p with
    | [] => s.isEmpty
    | c :: p' =>
      if c = '*' then s.tails.any (fun s2 => globMatchF fuel p' s2)
      else if c = '?' then
        (match s with
         | [] => false
         | _ :: s' => globMatchF fuel p' s')
      else if c = '[' then
        (match findClass p' with
         | none =>
           (match s with
            | [] => false
            | d :: s' => (d == '[') && globMatchF fuel p' s')
         | some (neg, items, rest) =>
           (match s with
            | [] => false
            | d :: s' => (neg != inClass d items) && globMatchF fuel rest s'))
      else
        (match s with
         | [] => false
         | d :: s' => (c == d) && globMatchF fuel p' s')

/-- fnmatch.fnmatch(s, p): run the matcher with sufficient fuel. -/
def globMatch (p s : Str) : Bool := globMatchF (p.length + 1) p s

/-- Split a string at every slash; the pieces between slashes, in order
(pieces may be empty for repeated slashes). -/
def splitOnSlash : Str → List Str
  | [] => [[]]
  | c :: r =>
    if c = '/' then [] :: splitOnSlash r
    else match splitOnSlash r with
      | [] => [[c]]
      | h :: t => (c :: h) :: t

/-- The parts of a pathlib PurePosixPath built from a string: a leading
slash becomes the root part, empty components and single dots are dropped
by pathlib normalization. -/
def pathParts (s : Str) : List Str :=
  if s.head? = some '/' then
    ['/'] :: (splitOnSlash s).filter (fun c => !(c.isEmpty) && !(c == ['.']))
  else (splitOnSlash s).filter (fun c => !(c.isEmpty) && !(c == ['.']))

/-- pathlib Path.name: the final non-root component, or empty for the
root itself. -/
def pathName (s : Str) : Str :=
  match (pathParts s).getLast? with
  | none => []
  | some last => if last = ['/'] then [] else last

/-- pathlib Path.relative_to: succeeds when the base path parts are a
prefix of the target path parts, returning the remaining parts; raises
ValueError (modelled as none) otherwise. -/
def relParts (base p : Str) : Option (List Str) :=
  if (pathParts base).isPrefixOf (pathParts p) then
    some ((pathParts p).drop (pathParts base).length)
  else none

/-- One row of the file_metadata table (the Entry of the spec). -/
structure Entry where
  id : Nat
  path : Str
  name : Str
  parent_path : Str
  type : Str
  extension : Option Str
  size : Int
  mtime : Int
  indexed_at : Int
deriving DecidableEq, Repr

/-- One row of the watch_paths table. -/
structure WatchPath where
  path : Str
  enabled : Bool
  status : Str
  total_files : Int
  indexed_files : Int
  last_full_scan : Option Int
  last_updated : Option Int
  error_message : Option Str
deriving DecidableEq, Repr

/-- The persistent store state: the file_metadata rows, the rowid counter,
the FTS5 trigram doclist entries (rowid, folded trigram token) of
file_name_index, the file_name_bigrams rows, the cached trigram
availability flag, the watch_paths rows and the ignore_patterns rows.
The legacy file_index FTS table is not consulted by any claim and is
omitted. -/
structure DB where
  entries : List Entry
  nextId : Nat
  trigram : List (Nat × Str)
  bigram : List (Nat × Str)
  trigramAvailable : Bool
  watch_paths : List WatchPath
  ignore_patterns : List Str
deriving DecidableEq, Repr

/-- IndexService._extract_bigrams: every contiguous 2-character window of
a name, empty when the name is shorter than 2. -/
def extract_bigrams (name : Str) : List Str := ngrams 2 name

/-- The FTS5 trigram tokens of a name: contiguous 3-character windows of
the case-folded name. The doclist stores one entry per distinct token per
row, so tokens are deduplicated. -/
def trigramTokens (name : Str) : List Str := (ngrams 3 (lowerStr name)).dedup

/-- The trigram doclist entries derived from a set of entry rows, as the
AFTER INSERT trigger (or rebuild_trigram_index) produces them. -/
def derivedTrigram (entries : List Entry) : List (Nat × Str) :=
  entries.flatMap (fun e => (trigramTokens e.name).map (fun t => (e.id, t)))

/-- The bigram rows rebuild_bigram_index derives from the entry rows:
for each entry, its deduplicated bigrams. -/
def derivedBigram (entries : List Entry) : List (Nat × Str) :=
  entries.flatMap (fun e => ((extract_bigrams e.name).dedup).map (fun b => (e.id, b)))

/-- IndexService.add_file: INSERT OR REPLACE into file_metadata.
On a path conflict SQLite deletes the old row without firing delete
triggers (recursive_triggers is off by default), then inserts a row with
a fresh rowid, firing the trigram AFTER INSERT trigger when the trigram
table exists. file_name_bigrams is not touched. -/
def add_file (db : DB) (path name parent_path file_type : Str)
    (extension : Option Str) (size mtime now : Int) : DB :=
  let newE : Entry :=
    { id := db.nextId, path := path, name := name, parent_path := parent_path,
      type := file_type, extension := extension, size := size, mtime := mtime,
      indexed_at := now }
  { db with
    entries := db.entries.filter (fun e => !(e.path == path)) ++ [newE],
    nextId := db.nextId + 1,
    trigram := db.trigram ++
      (if db.trigramAvailable then (trigramTokens name).map (fun t => (db.nextId, t)) else []) }

/-- IndexService.remove_file: DELETE FROM file_metadata WHERE path = ?.
The trigram AFTER DELETE trigger removes each deleted row's tokens from
the doclist; the bigram foreign-key cascade is inert because the source
never enables PRAGMA foreign_keys. -/
def remove_file (db : DB) (path : Str) : DB :=
  { db with
    entries := db.entries.filter (fun e => !(e.path == path)),
    trigram :=
      if db.trigramAvailable then
        db.trigram.filter (fun pr =>
          !((db.entries.filter (fun e => e.path == path)).any
            (fun d => pr.1 == d.id && (trigramTokens d.name).contains pr.2)))
      else db.trigram }

/-- The keyword arguments accepted by IndexService.update_file: any subset
of the mutable columns. -/
structure UpdateFields where
  path : Option Str := none
  name : Option Str := none
  parent_path : Option Str := none
  type : Option Str := none
  extension : Option (Option Str) := none
  size : Option Int := none
  mtime : Option Int := none
deriving Repr

def UpdateFields.isEmpty (u : UpdateFields) : Bool :=
  u.path.isNone && u.name.isNone && u.parent_path.isNone && u.type.isNone &&
    u.extension.isNone && u.size.isNone && u.mtime.isNone

def applyUpdate (u : UpdateFields) (e : Entry) : Entry :=
  { e with
    path := u.path.getD e.path,
    name := u.name.getD e.name,
    parent_path := u.parent_path.getD e.parent_path,
    type := u.type.getD e.type,
    extension := u.extension.getD e.extension,
    size := u.size.getD e.size,
    mtime := u.mtime.getD e.mtime }

/-- IndexService.update_file: UPDATE file_metadata SET ... WHERE path = ?;
returns unchanged when no keyword arguments are given. The trigram AFTER
UPDATE trigger deletes each updated row's old tokens and inserts the new
ones under the unchanged rowid. (The source would raise on a UNIQUE
violation when updating path onto an existing different path; the model
is used only with path-preserving updates.) -/
def update_file (db : DB) (path : Str) (u : UpdateFields) : DB :=
  if u.isEmpty then db
  else
    { db with
      entries := db.entries.map (fun e => if e.path == path then applyUpdate u e else e),
      trigram :=
        if db.trigramAvailable then
          (db.trigram.filter (fun pr =>
            !((db.entries.filter (fun e => e.path == path)).any
              (fun d => pr.1 == d.id && (trigramTokens d.name).contains pr.2)))) ++
          ((db.entries.filter (fun e => e.path == path)).flatMap
            (fun d => (trigramTokens (applyUpdate u d).name).map (fun t => (d.id, t))))
        else db.trigram }

/-- One record handed to batch_add_files. -/
structure FileRecord where
  path : Str
  name : Str
  parent_path : Str
  file_type : Str
  extension : Option Str
  size : Int
  mtime : Int
deriving DecidableEq, Repr

/-- IndexService.batch_add_files: executemany of INSERT OR REPLACE in one
transaction, with indexed_at stamped once for the whole batch. -/
def batch_add_files (db : DB) (files : List FileRecord) (now : Int) : DB :=
  files.foldl
    (fun d f => add_file d f.path f.name f.parent_path f.file_type f.extension f.size f.mtime now)
    db

/-- IndexService.rebuild_bigram_index: clear file_name_bigrams, then
reinsert every entry's deduplicated bigrams. -/
def rebuild_bigram_index (db : DB) : DB :=
  { db with bigram := derivedBigram db.entries }

/-- IndexService.rebuild_trigram_index: no-op when the trigram table is
unavailable, else clear and reinsert all names. -/
def rebuild_trigram_index (db : DB) : DB :=
  if db.trigramAvailable then { db with trigram := derivedTrigram db.entries } else db

/-- Python truthiness of an optional string argument: None and the empty
string are both falsy. -/
def truthy : Option Str → Option Str
  | none => none
  | some s => if s.isEmpty then none else some s

/-- Byte-lexicographic strict order on text, as the BINARY collation
orders TEXT columns. -/
def strLt : Str → Str → Bool
  | [], [] => false
  | [], _ :: _ => true
  | _ :: _, [] => false
  | a :: s, b :: t => a < b || (a == b && strLt s t)

def strLe (a b : Str) : Bool := !(strLt b a)

/-- The query strategies of IndexService.search. -/
inductive Strategy
  | trigramFts
  | bigramJoin
  | likeScan
  | fullScan
deriving DecidableEq, Repr

/-- The strategy IndexService.search picks: empty query scans everything;
with the trigram index and at least 3 characters, FTS; exactly 2
characters, the bigram join; otherwise the LIKE scan. -/
def selectStrategy (trigramAvailable : Bool) (query : Str) : Strategy :=
  if query.length = 0 then .fullScan
  else if trigramAvailable ∧ 3 ≤ query.length then .trigramFts
  else if query.length = 2 then .bigramJoin
  else .likeScan

/-- Does embedding the query in double quotes produce an FTS5 syntax
error? A lone double quote terminates the phrase early; doubled quotes
are the escape for a literal quote. -/
def oddQuote : Str → Bool
  | [] => false
  | [c] => c = '\"'
  | c :: d :: r =>
    if c = '\"' then (if d = '\"' then oddQuote r else true)
    else oddQuote (d :: r)

/-- The phrase text FTS5 reads from the quoted query: doubled quotes
collapse to one literal quote. -/
def unescapeQuotes : Str → Str
  | [] => []
  | [c] => [c]
  | c :: d :: r =>
    if c = '\"' ∧ d = '\"' then '\"' :: unescapeQuotes r
    else c :: unescapeQuotes (d :: r)

/-- The query tokens of the FTS phrase: trigrams of the folded phrase. -/
def queryTrigrams (q : Str) : List Str := ngrams 3 (lowerStr (unescapeQuotes q))

/-- The SQL pattern of the LIKE fallback: percent, query, percent. -/
def likePattern (q : Str) : Str := '%' :: (q ++ ['%'])

/-- Whether one entry row is produced by the strategy lookup: full scan
takes everything; LIKE compares the name against the percent-wrapped
query; the bigram join requires a bigram row (id, query); the FTS match
requires every query trigram in the row's doclist (phrase positions are
not modelled; for queries of up to 3 characters, the single-token phrase,
this is exact). -/
def rowMatchesStrategy (db : DB) (strat : Strategy) (q : Str) (e : Entry) : Bool :=
  match strat with
  | .fullScan => true
  | .likeScan => likeMatch (likePattern q) e.name
  | .bigramJoin => db.bigram.contains (e.id, q)
  | .trigramFts => (queryTrigrams q).all (fun t => db.trigram.contains (e.id, t))

/-- The sort column actually used: one of name, path, size, mtime, any
other value silently falling back to name. -/
def sortColumnOf (sort : Str) : Str :=
  if sort ∈ ["name".toList, "path".toList, "size".toList, "mtime".toList] then sort
  else "name".toList

/-- Row comparison for ORDER BY on the given column. -/
def keyLe (col : Str) (e1 e2 : Entry) : Bool :=
  if col = "path".toList then strLe e1.path e2.path
  else if col = "size".toList then decide (e1.size ≤ e2.size)
  else if col = "mtime".toList then decide (e1.mtime ≤ e2.mtime)
  else strLe e1.name e2.name

def rowLe (col : Str) (ascending : Bool) (e1 e2 : Entry) : Bool :=
  if ascending then keyLe col e1 e2 else keyLe col e2 e1

/-- ORDER BY: the rows sorted by the requested column and direction
(SQLite fixes no tie order; the model sorts stably). -/
def sortRows (col : Str) (ascending : Bool) (l : List Entry) : List Entry :=
  List.insertionSort (fun a b => rowLe col ascending a b = true) l

/-- The arguments of IndexService.search with its Python defaults. -/
structure SearchArgs where
  query : Str := []
  path_filter : Option Str := none
  type_filter : Option Str := none
  max_results : Nat := 1000
  depth : Nat := 0
  offset : Nat := 0
  sort : Str := "name".toList
  ascending : Bool := true
deriving Repr

/-- The Python result loop over fetched rows: stop when max_results
results are collected; drop rows failing the depth filter; then skip
rows until offset many (filtered) rows were skipped; collect the rest. -/
def collect (pass : Entry → Bool) (cap skip : Nat) (l : List Entry) : List Entry :=
  match l with
  | [] => []
  | r :: rs =>
    match cap with
    | 0 => []
    | cap' + 1 =>
      if pass r then
        match skip with
        | 0 => r :: collect pass cap' 0 rs
        | skip' + 1 => collect pass (cap' + 1) skip' rs
      else collect pass (cap' + 1) skip rs

/-- Does search raise? Only the FTS branch can, on a malformed quoted
phrase. -/
def searchRaises (db : DB) (a : SearchArgs) : Bool :=
  selectStrategy db.trigramAvailable a.query == .trigramFts && oddQuote a.query

/-- The rows surviving the strategy lookup and the SQL path and type
filters, in table order. -/
def searchFiltered (db : DB) (a : SearchArgs) : List Entry :=
  let strat := selectStrategy db.trigramAvailable a.query
  let rows := db.entries.filter (rowMatchesStrategy db strat a.query)
  let rows :=
    match truthy a.path_filter with
    | none => rows
    | some pf => rows.filter (fun e => likeMatch (pf ++ ['%']) e.path)
  match truthy a.type_filter with
  | none => rows
  | some tf => if tf = "all".toList then rows else rows.filter (fun e => e.type == tf)

/-- The SQL LIMIT used: overfetch massively when the depth filter will
run, else exactly max_results + offset. -/
def limitCount (a : SearchArgs) : Nat :=
  if 0 < a.depth ∧ (truthy a.path_filter).isSome then 100000 else a.max_results + a.offset

/-- The rows the SQL statement returns: filtered, ordered, limited. -/
def searchFetched (db : DB) (a : SearchArgs) : List Entry :=
  (sortRows (sortColumnOf a.sort) a.ascending (searchFiltered db a)).take (limitCount a)

/-- The base path of the depth filter, set only when depth is positive
and a path filter is present. -/
def searchBase (a : SearchArgs) : Option Str :=
  if 0 < a.depth then truthy a.path_filter else none

/-- The per-row depth check of the Python result loop: without a base
path everything passes; otherwise the row's path must be relative to the
base and its relative component count at most depth. -/
def passDepth (basePath : Option Str) (depth : Nat) (e : Entry) : Bool :=
  match basePath with
  | none => true
  | some b =>
    match relParts b e.path with
    | none => false
    | some rel => rel.length ≤ depth

/-- IndexService.search: none models the propagated FTS5 syntax error,
some the returned result list. -/
def search (db : DB) (a : SearchArgs) : Option (List Entry) :=
  if searchRaises db a then none
  else some (collect (passDepth (searchBase a) a.depth) a.max_results a.offset (searchFetched db a))

/-- IndexService.register_path: INSERT OR IGNORE with the schema
defaults (enabled, idle, zero counters) and last_updated stamped. -/
def register_path (db : DB) (path : Str) (now : Int) : DB :=
  if db.watch_paths.any (fun w => w.path == path) then db
  else
    { db with
      watch_paths := db.watch_paths ++
        [{ path := path, enabled := true, status := "idle".toList, total_files := 0,
           indexed_files := 0, last_full_scan := none, last_updated := some now,
           error_message := none }] }

/-- IndexService.update_path_status. -/
def update_path_status (db : DB) (path status : Str) (now : Int) : DB :=
  { db with
    watch_paths := db.watch_paths.map (fun w =>
      if w.path == path then { w with status := status, last_updated := some now } else w) }

/-- IndexService.remove_path: DELETE FROM file_metadata WHERE path LIKE
'root%' OR parent_path LIKE 'root%', then DELETE FROM watch_paths WHERE
path = root, in one commit. The trigram delete trigger fires per deleted
row; bigram rows stay (no foreign-key enforcement). -/
def remove_path (db : DB) (path : Str) : DB :=
  let pat := path ++ ['%']
  let hit := fun (e : Entry) => likeMatch pat e.path || likeMatch pat e.parent_path
  let deleted := db.entries.filter hit
  { db with
    entries := db.entries.filter (fun e => !(hit e)),
    trigram :=
      if db.trigramAvailable then
        db.trigram.filter (fun pr =>
          !(deleted.any (fun d => pr.1 == d.id && (trigramTokens d.name).contains pr.2)))
      else db.trigram,
    watch_paths := db.watch_paths.filter (fun w => !(w.path == path)) }

/-- Is the candidate path covered by a watch path: equal to it or under
it, comparing resolved path components. -/
def covers (watch p : Str) : Bool := (pathParts watch).isPrefixOf (pathParts p)

/-- IndexService.get_covering_watch_path: scan the enabled watch paths,
longest first, and return the first that equals the candidate or has it
as a descendant. -/
def get_covering_watch_path (db : DB) (path : Str) : Option Str :=
  let rows := (db.watch_paths.filter (fun w => w.enabled)).map (fun w => w.path)
  let rows := List.insertionSort (fun a b => (b.length ≤ a.length)) rows
  rows.find? (fun wp => covers wp path)

/-- IndexService.is_path_indexed. -/
def is_path_indexed (db : DB) (path : Str) : Bool :=
  (get_covering_watch_path db path).isSome

/-- IndexService.get_ignore_patterns: SELECT pattern ... ORDER BY
pattern. -/
def get_ignore_patterns (db : DB) : List Str :=
  List.insertionSort (fun a b => strLe a b = true) db.ignore_patterns

/-- IndexService.is_ignored: some stored pattern matches the whole path
as a glob, or, for patterns free of path separators, matches some path
component as a glob. -/
def is_ignored (db : DB) (path : Str) : Bool :=
  (get_ignore_patterns db).any (fun pat =>
    globMatch pat path ||
      (!(pat.contains '/') && !(pat.contains '\\') &&
        (pathParts path).any (fun part => globMatch pat part)))

/-- ParallelScanner._should_ignore: skipping empty patterns, the final
name matches the pattern as a glob, or equals it literally, or the
pattern occurs as a substring of the full path string. -/
def should_ignore (ignore_patterns : List Str) (path : Str) : Bool :=
  let name := pathName path
  ignore_patterns.any (fun pat =>
    !(pat.isEmpty) && (globMatch pat name || name == pat || containsSub path pat))

/-- The outcomes of the admin add-path endpoint. -/
inductive AddPathResult
  | notFound
  | notADirectory
  | alreadyIndexed
  | scanningStarted
deriving DecidableEq, Repr

/-- routers/admin.py add_path: 404 when the path does not exist, 400 when
it is not a directory, already_indexed (and no store mutation, no
background scan) when a covering watch path exists, else register, mark
scanning and start the background scan. The filesystem checks are inputs
to the model. -/
def add_path (db : DB) (pathExists isDir : Bool) (path : Str) (now : Int) :
    AddPathResult × DB :=
  if !pathExists then (.notFound, db)
  else if !isDir then (.notADirectory, db)
  else if is_path_indexed db path then (.alreadyIndexed, db)
  else
    let db := register_path db path now
    let db := update_path_status db path ("scanning".toList) now
    (.scanningStarted, db)

/-- routers/search.py sort normalization: date_modified maps to mtime,
size, path and name map to themselves, anything else to name. -/
def sort_mapping (sort : Str) : Str :=
  if sort = "date_modified".toList then "mtime".toList
  else if sort = "size".toList then "size".toList
  else if sort = "path".toList then "path".toList
  else if sort = "name".toList then "name".toList
  else "name".toList

/-! Helper lemmas about the string primitives. -/

theorem containsSub_iff : ∀ hay pat : Str, (containsSub hay pat = true ↔ pat <:+: hay) := by
  intro hay
  induction hay with
  | nil =>
    intro pat
    rw [containsSub]
    constructor
    · intro h
      by_cases hp : pat.isPrefixOf ([] : Str) = true
      · exact (List.isPrefixOf_iff_prefix.mp hp).isInfix
      · simp [hp] at h
    · intro h
      have hnil := List.eq_nil_of_infix_nil h
      subst hnil
      simp [List.isPrefixOf]
  | cons c t ih =>
    intro pat
    rw [containsSub]
    by_cases hp : pat.isPrefixOf (c :: t) = true
    · simp only [hp, if_true, true_iff]
      exact (List.isPrefixOf_iff_prefix.mp hp).isInfix
    · simp only [hp, if_false, Bool.false_eq_true]
      rw [ih pat]
      constructor
      · intro h
        exact List.infix_cons h
      · intro h
        rcases h with ⟨pre, post, hsplit⟩
        cases pre with
        | nil =>
          simp at hsplit
          exact absurd (List.isPrefixOf_iff_prefix.mpr ⟨post, hsplit⟩) hp
        | cons a pre' =>
          rw [List.cons_append, List.cons_append] at hsplit
          injection hsplit with _ hsplit2
          exact ⟨pre', post, hsplit2⟩

theorem containsSub_refl (s : Str) : containsSub s s = true :=
  (containsSub_iff s s).mpr List.infix_rfl

/-- splitOnSlash always returns at least one piece, the first being a
prefix of the input and the rest infixes of it. -/
theorem splitOnSlash_spec : ∀ s : Str, ∃ h t, splitOnSlash s = h :: t ∧ h <+: s ∧
    ∀ c ∈ t, c <:+: s := by
  intro s
  induction s with
  | nil => exact ⟨[], [], rfl, List.nil_prefix, by simp⟩
  | cons a r ih =>
    rcases ih with ⟨h, t, hsplit, hpre, hinf⟩
    by_cases ha : a = '/'
    · refine ⟨[], splitOnSlash r, ?_, List.nil_prefix, ?_⟩
      · rw [splitOnSlash, if_pos ha]
      · intro c hc
        rw [hsplit] at hc
        rcases List.mem_cons.mp hc with hceq | hct
        · subst hceq
          exact List.infix_cons hpre.isInfix
        · exact List.infix_cons (hinf c hct)
    · refine ⟨a :: h, t, ?_, ?_, ?_⟩
      · rw [splitOnSlash, if_neg ha, hsplit]
      · rcases hpre with ⟨u, hu⟩
        exact ⟨u, by rw [List.cons_append, hu]⟩
      · intro c hc
        exact List.infix_cons (hinf c hc)

theorem mem_splitOnSlash_infix (s c : Str) (hc : c ∈ splitOnSlash s) : c <:+: s := by
  rcases splitOnSlash_spec s with ⟨h, t, hsplit, hpre, hinf⟩
  rw [hsplit] at hc
  rcases List.mem_cons.mp hc with hceq | hct
  · subst hceq
    exact hpre.isInfix
  · exact hinf c hct

theorem mem_pathParts_infix (s part : Str) (hmem : part ∈ pathParts s)
    (hroot : part ≠ ['/']) : part <:+: s := by
  have hmem2 : part ∈ (splitOnSlash s).filter (fun c => !(c.isEmpty) && !(c == ['.'])) := by
    unfold pathParts at hmem
    by_cases hh : s.head? = some '/'
    · rw [if_pos hh] at hmem
      rcases List.mem_cons.mp hmem with hceq | hct
      · exact absurd hceq hroot
      · exact hct
    · rw [if_neg hh] at hmem
      exact hmem
  exact mem_splitOnSlash_infix s part (List.mem_of_mem_filter hmem2)

/-- A set of characters free of glob metacharacters. -/
abbrev plainGlob (p : Str) : Prop := ∀ c ∈ p, c ≠ '*' ∧ c ≠ '?' ∧ c ≠ '['

/-- Without metacharacters a glob pattern matches exactly itself,
under any sufficient fuel. -/
theorem globMatchF_plain : ∀ (fuel : Nat) (p s : Str), p.length < fuel → plainGlob p →
    (globMatchF fuel p s = true ↔ p = s) := by
  intro fuel
  induction fuel with
  | zero =>
    intro p s hlen _
    omega
  | succ fuel ih =>
    intro p s hlen hplain
    cases p with
    | nil =>
      simp only [globMatchF]
      cases s <;> simp
    | cons c p2 =>
      have hc := hplain c (by simp)
      simp only [globMatchF]
      rw [if_neg hc.1, if_neg hc.2.1, if_neg hc.2.2]
      cases s with
      | nil => simp
      | cons d s2 =>
        have hlen2 : p2.length < fuel := by
          simp only [List.length_cons] at hlen
          omega
        have := ih p2 s2 hlen2 (fun x hx => hplain x (by simp [hx]))
        simp only [Bool.and_eq_true, beq_iff_eq, this, List.cons.injEq]

theorem globMatch_plain (p s : Str) (hplain : plainGlob p) :
    (globMatch p s = true ↔ p = s) :=
  globMatchF_plain (p.length + 1) p s (by omega) hplain

/-! Helper lemmas about LIKE matching. -/

theorem likeMatch_nil (t : Str) : likeMatch [] t = t.isEmpty := rfl

theorem likeMatch_cons (c : Char) (p t : Str) :
    likeMatch (c :: p) t =
      (if c = '%' then t.tails.any (fun t2 => likeMatch p t2)
      else
        match t with
        | [] => false
        | d :: t2 => (decide (c = '_') || (lowerChar c == lowerChar d)) && likeMatch p t2) := rfl

theorem likeMatch_percent_append (p t1 t2 : Str) (h : likeMatch p t2 = true) :
    likeMatch ('%' :: p) (t1 ++ t2) = true := by
  rw [likeMatch_cons, if_pos rfl, List.any_eq_true]
  exact ⟨t2, (List.mem_tails _ _).mpr ⟨t1, rfl⟩, h⟩

theorem likeMatch_self_percent : ∀ r s : Str, likeMatch (r ++ ['%']) (r ++ s) = true := by
  intro r
  induction r with
  | nil =>
    intro s
    rw [List.nil_append, List.nil_append]
    have := likeMatch_percent_append [] s [] rfl
    rwa [List.append_nil] at this
  | cons c r ih =>
    intro s
    rw [List.cons_append, List.cons_append, likeMatch_cons]
    by_cases hc : c = '%'
    · rw [if_pos hc, List.any_eq_true]
      exact ⟨r ++ s, (List.mem_tails _ _).mpr ⟨[c], rfl⟩, ih s⟩
    · rw [if_neg hc]
      simp [ih s]

theorem likeMatch_of_leading (r path : Str) (h : r <+: path) :
    likeMatch (r ++ ['%']) path = true := by
  rcases h with ⟨s, hs⟩
  rw [← hs]
  exact likeMatch_self_percent r s

theorem likeMatch_percent_iff (p t : Str) :
    likeMatch ('%' :: p) t = true ↔ ∃ t1 t2, t = t1 ++ t2 ∧ likeMatch p t2 = true := by
  rw [likeMatch_cons, if_pos rfl, List.any_eq_true]
  constructor
  · rintro ⟨t2, hmem, hm⟩
    rcases (List.mem_tails _ _).mp hmem with ⟨t1, rfl⟩
    exact ⟨t1, t2, rfl, hm⟩
  · rintro ⟨t1, t2, rfl, hm⟩
    exact ⟨t2, (List.mem_tails _ _).mpr ⟨t1, rfl⟩, hm⟩

/-- A query free of the LIKE metacharacters. -/
abbrev plainLike (q : Str) : Prop := ∀ c ∈ q, c ≠ '%' ∧ c ≠ '_'

theorem likeMatch_plain_percent : ∀ q t : Str, plainLike q →
    (likeMatch (q ++ ['%']) t = true ↔ lowerStr q <+: lowerStr t) := by
  intro q
  induction q with
  | nil =>
    intro t _
    constructor
    · intro _
      exact List.nil_prefix
    · intro _
      rw [List.nil_append, likeMatch_cons, if_pos rfl, List.any_eq_true]
      exact ⟨[], (List.mem_tails _ _).mpr ⟨t, List.append_nil t⟩, rfl⟩
  | cons c q ih =>
    intro t hplain
    have hc := hplain c (by simp)
    rw [List.cons_append, likeMatch_cons, if_neg hc.1]
    cases t with
    | nil => simp [lowerStr]
    | cons d t2 =>
      have hq := ih t2 (fun x hx => hplain x (by simp [hx]))
      simp [lowerStr, hc.2, hq, List.cons_prefix_cons]

theorem likeMatch_likePattern_iff (q s : Str) (hplain : plainLike q) :
    (likeMatch (likePattern q) s = true ↔ containsSub (lowerStr s) (lowerStr q) = true) := by
  rw [likePattern, likeMatch_percent_iff, containsSub_iff]
  constructor
  · rintro ⟨t1, t2, rfl, hm⟩
    rcases (likeMatch_plain_percent q t2 hplain).mp hm with ⟨u, hu⟩
    refine ⟨lowerStr t1, u, ?_⟩
    rw [List.append_assoc, hu]
    simp [lowerStr]
  · rintro ⟨pre, post, hsplit⟩
    refine ⟨s.take pre.length, s.drop pre.length, (List.take_append_drop pre.length s).symm, ?_⟩
    rw [likeMatch_plain_percent q _ hplain]
    have hdrop : lowerStr (s.drop pre.length) = (lowerStr s).drop pre.length := by
      simp [lowerStr, List.map_drop]
    rw [hdrop, ← hsplit, List.append_assoc, List.drop_left]
    exact ⟨post, rfl⟩

/-! Helper lemmas about n-grams and table derivations. -/

theorem ngrams_nil (n : Nat) : ngrams n [] = [] := rfl

theorem ngrams_cons (n : Nat) (c : Char) (t : Str) :
    ngrams n (c :: t) =
      (if (c :: t).length < n ∨ n = 0 then [] else ((c :: t).take n) :: ngrams n t) := rfl

theorem mem_ngrams (n : Nat) (hn : 0 < n) :
    ∀ s t : Str, (t ∈ ngrams n s ↔ t.length = n ∧ t <:+: s) := by
  intro s
  induction s with
  | nil =>
    intro t
    rw [ngrams_nil]
    simp only [List.not_mem_nil, false_iff]
    rintro ⟨hlen, hinf⟩
    have hnil := List.eq_nil_of_infix_nil hinf
    subst hnil
    simp at hlen
    omega
  | cons a rest ih =>
    intro t
    rw [ngrams_cons]
    by_cases hlt : (a :: rest).length < n ∨ n = 0
    · rw [if_pos hlt]
      rcases hlt with hlt | hlt
      · simp only [List.not_mem_nil, false_iff]
        rintro ⟨hlen, hinf⟩
        have hle := hinf.length_le
        simp only [List.length_cons] at hlt hle
        omega
      · omega
    · rw [if_neg hlt]
      push_neg at hlt
      rw [List.mem_cons, ih]
      constructor
      · rintro (heq | ⟨hlen, hinf⟩)
        · subst heq
          refine ⟨?_, (List.take_prefix n _).isInfix⟩
          rw [List.length_take]
          simp only [List.length_cons] at hlt ⊢
          omega
        · exact ⟨hlen, List.infix_cons hinf⟩
      · rintro ⟨hlen, hinf⟩
        rcases hinf with ⟨pre, post, hsplit⟩
        cases pre with
        | nil =>
          left
          rw [List.nil_append] at hsplit
          rw [← hsplit, ← hlen]
          exact (List.take_left t post).symm
        | cons b pre2 =>
          right
          rw [List.cons_append, List.cons_append] at hsplit
          injection hsplit with _ hsplit2
          exact ⟨hlen, pre2, post, hsplit2⟩

theorem ngrams_self (n : Nat) (s : Str) (hn : 0 < n) (hlen : s.length = n) :
    ngrams n s = [s] := by
  rcases s with _ | ⟨c, r⟩
  · simp at hlen
    omega
  · rw [ngrams_cons, if_neg (by omega)]
    have h1 : (c :: r).take n = c :: r := List.take_of_length_le (by omega)
    have h2 : ngrams n r = [] := by
      rcases r with _ | ⟨d, r2⟩
      · rfl
      · rw [ngrams_cons, if_pos]
        left
        simp only [List.length_cons] at hlen ⊢
        omega
    rw [h1, h2]

theorem mem_derivedBigram (entries : List Entry) (i : Nat) (g : Str) :
    ((i, g) ∈ derivedBigram entries ↔
      ∃ e ∈ entries, e.id = i ∧ g ∈ extract_bigrams e.name) := by
  unfold derivedBigram
  rw [List.mem_flatMap]
  constructor
  · rintro ⟨e, he, hmem⟩
    rw [List.mem_map] at hmem
    rcases hmem with ⟨b, hb, heq⟩
    have h1 := congrArg Prod.fst heq
    have h2 := congrArg Prod.snd heq
    simp at h1 h2
    subst h2
    exact ⟨e, he, h1, List.mem_dedup.mp hb⟩
  · rintro ⟨e, he, hid, hg⟩
    exact ⟨e, he, List.mem_map.mpr ⟨g, List.mem_dedup.mpr hg, by rw [hid]⟩⟩

theorem mem_derivedTrigram (entries : List Entry) (i : Nat) (g : Str) :
    ((i, g) ∈ derivedTrigram entries ↔
      ∃ e ∈ entries, e.id = i ∧ g ∈ trigramTokens e.name) := by
  unfold derivedTrigram
  rw [List.mem_flatMap]
  constructor
  · rintro ⟨e, he, hmem⟩
    rw [List.mem_map] at hmem
    rcases hmem with ⟨b, hb, heq⟩
    have h1 := congrArg Prod.fst heq
    have h2 := congrArg Prod.snd heq
    simp at h1 h2
    subst h2
    exact ⟨e, he, h1, hb⟩
  · rintro ⟨e, he, hid, hg⟩
    exact ⟨e, he, List.mem_map.mpr ⟨g, hg, by rw [hid]⟩⟩

theorem idsInj (entries : List Entry)
    (hwf : entries.Pairwise (fun a b => a.id ≠ b.id)) :
    ∀ a ∈ entries, ∀ b ∈ entries, a.id = b.id → a = b := by
  induction entries with
  | nil => simp
  | cons e rest ih =>
    rw [List.pairwise_cons] at hwf
    rintro a ha b hb heq
    rcases List.mem_cons.mp ha with ha1 | ha1
    · rcases List.mem_cons.mp hb with hb1 | hb1
      · rw [ha1, hb1]
      · exact absurd (show e.id = b.id by rw [← ha1]; exact heq) (hwf.1 b hb1)
    · rcases List.mem_cons.mp hb with hb1 | hb1
      · exact absurd (show e.id = a.id by rw [← hb1]; exact heq.symm) (hwf.1 a ha1)
      · exact ih hwf.2 a ha1 b hb1 heq

/-! Helper lemmas about the result loop and sorting. -/

theorem collect_eq (pass : Entry → Bool) :
    ∀ (l : List Entry) (cap skip : Nat),
      collect pass cap skip l = ((l.filter pass).drop skip).take cap := by
  intro l
  induction l with
  | nil =>
    intro cap skip
    simp [collect]
  | cons r rs ih =>
    intro cap skip
    cases cap with
    | zero => simp [collect]
    | succ cap' =>
      by_cases hp : pass r = true
      · cases skip with
        | zero => simp [collect, List.filter_cons, hp, ih]
        | succ skip' => simp [collect, List.filter_cons, hp, ih]
      · simp [collect, List.filter_cons, hp, ih]

theorem sortRows_perm (col : Str) (asc : Bool) (l : List Entry) :
    (sortRows col asc l).Perm l :=
  List.perm_insertionSort _ l

theorem oddQuote_eq_false (q : Str) (h : '\"' ∉ q) : oddQuote q = false := by
  induction q with
  | nil => rfl
  | cons c r ih =>
    have hc : c ≠ '\"' := fun hc => h (by simp [hc])
    cases r with
    | nil => simp [oddQuote, hc]
    | cons d r' =>
      rw [oddQuote, if_neg hc]
      exact ih (fun hr => h (by simp [hr]))

theorem unescapeQuotes_eq_self (q : Str) (h : '\"' ∉ q) : unescapeQuotes q = q := by
  induction q with
  | nil => rfl
  | cons c r ih =>
    have hc : c ≠ '\"' := fun hc => h (by simp [hc])
    cases r with
    | nil => rfl
    | cons d r' =>
      rw [unescapeQuotes, if_neg (fun hand => hc hand.1),
        ih (fun hr => h (by simp [hr]))]

/-! Helper lemmas for the n-gram consistency invariant. -/

/-- The trigram doclist entries one entry row contributes. -/
def entryTriPairs (e : Entry) : List (Nat × Str) :=
  (trigramTokens e.name).map (fun t => (e.id, t))

theorem derivedTrigram_eq_flatMap (l : List Entry) :
    derivedTrigram l = l.flatMap entryTriPairs := rfl

theorem mem_entryTriPairs (e : Entry) (pr : Nat × Str) :
    pr ∈ entryTriPairs e ↔ pr.1 = e.id ∧ pr.2 ∈ trigramTokens e.name := by
  unfold entryTriPairs
  rw [List.mem_map]
  constructor
  · rintro ⟨t, ht, heq⟩
    have h1 := congrArg Prod.fst heq
    have h2 := congrArg Prod.snd heq
    simp at h1 h2
    rw [← h1, ← h2]
    exact ⟨rfl, ht⟩
  · rintro ⟨h1, h2⟩
    exact ⟨pr.2, h2, by rw [← h1]⟩

theorem flatMap_congr_mem {α β : Type} (l : List α) (f g : α → List β)
    (h : ∀ x ∈ l, f x = g x) : l.flatMap f = l.flatMap g := by
  induction l with
  | nil => rfl
  | cons a l ih =>
    rw [List.flatMap_cons, List.flatMap_cons, h a (by simp),
      ih (fun x hx => h x (by simp [hx]))]

theorem flatMap_split_perm {α β : Type} (l : List α) (p : α → Bool) (g : α → List β) :
    (l.flatMap g).Perm
      ((l.filter (fun x => !(p x))).flatMap g ++ (l.filter p).flatMap g) := by
  induction l with
  | nil => simp
  | cons a l ih =>
    rw [List.flatMap_cons, List.filter_cons, List.filter_cons]
    by_cases hp : p a = true
    · rw [if_pos hp, if_neg (show ¬((!(p a)) = true) by simp [hp]), List.flatMap_cons]
      refine (List.Perm.append_left (g a) ih).trans ?_
      rw [← List.append_assoc, ← List.append_assoc]
      exact List.Perm.append_right _ List.perm_append_comm
    · rw [if_neg hp, if_pos (show (!(p a)) = true by simp [hp]), List.flatMap_cons,
        List.append_assoc]
      exact List.Perm.append_left (g a) ih

/-- Filtering a derived trigram table by the delete-trigger predicate of a
selected sub-list removes exactly the selected rows' contributions,
provided distinct rows have distinct ids. -/
theorem derivedTrigram_filter_del (sel : Entry → Bool) (del : List Entry) :
    ∀ l : List Entry,
      (∀ a ∈ l, ∀ d ∈ del, a.id = d.id → a = d) →
      (∀ a ∈ l, (a ∈ del ↔ sel a = true)) →
      (derivedTrigram l).filter (fun pr =>
          !(del.any (fun d => pr.1 == d.id && (trigramTokens d.name).contains pr.2)))
        = derivedTrigram (l.filter (fun e => !(sel e))) := by
  intro l
  induction l with
  | nil =>
    intro _ _
    rfl
  | cons a l ih =>
    intro hinj hdel
    have ha : a ∈ a :: l := by simp
    rw [derivedTrigram_eq_flatMap, List.flatMap_cons, List.filter_append,
      List.filter_cons]
    by_cases hsel : sel a = true
    · have hadel : a ∈ del := (hdel a ha).mpr hsel
      have hgone : (entryTriPairs a).filter (fun pr =>
          !(del.any (fun d => pr.1 == d.id && (trigramTokens d.name).contains pr.2))) = [] := by
        rw [List.filter_eq_nil_iff]
        intro pr hpr
        rw [mem_entryTriPairs] at hpr
        simp only [Bool.not_eq_true', Bool.not_eq_false]
        rw [List.any_eq_true]
        exact ⟨a, hadel, by
          simp only [Bool.and_eq_true, beq_iff_eq]
          exact ⟨hpr.1, List.elem_iff.mpr hpr.2⟩⟩
      rw [hgone, hsel]
      simp only [Bool.not_true, Bool.false_eq_true, if_false, List.nil_append]
      rw [← derivedTrigram_eq_flatMap,
        ih (fun x hx => hinj x (by simp [hx]) ) (fun x hx => hdel x (by simp [hx]))]
    · have hsel2 : sel a = false := by simp [hsel]
      have hkeep : (entryTriPairs a).filter (fun pr =>
          !(del.any (fun d => pr.1 == d.id && (trigramTokens d.name).contains pr.2)))
          = entryTriPairs a := by
        rw [List.filter_eq_self]
        intro pr hpr
        rw [mem_entryTriPairs] at hpr
        simp only [Bool.not_eq_true']
        rw [List.any_eq_false]
        intro d hd
        intro hcontra
        simp only [Bool.and_eq_true, beq_iff_eq] at hcontra
        have had : a = d := hinj a ha d hd (by rw [← hpr.1]; exact hcontra.1)
        exact hsel ((hdel a ha).mp (by rw [had]; exact hd))
      rw [hkeep, hsel2]
      simp only [Bool.not_false, if_true]
      rw [show (l.flatMap entryTriPairs) = derivedTrigram l from rfl,
        ih (fun x hx => hinj x (by simp [hx])) (fun x hx => hdel x (by simp [hx]))]
      rfl

/-! The claim theorems. -/

/-- C2: the search operation selects its lookup strategy purely by query
length and trigram availability: length 0 scans all entries, length 1
uses the LIKE scan, length 2 the bigram join, length at least 3 the FTS
trigram match when available and the LIKE scan otherwise; and the per-row
lookup of each strategy is the stated one (full scan keeps every row,
the scan compares the name against the percent-wrapped query, the bigram
join requires a bigram row equal to the query). -/
theorem C2_strategy_selection (avail : Bool) (q : Str) :
    (q.length = 0 → selectStrategy avail q = .fullScan) ∧
    (q.length = 1 → selectStrategy avail q = .likeScan) ∧
    (q.length = 2 → selectStrategy avail q = .bigramJoin) ∧
    (3 ≤ q.length →
      selectStrategy avail q = (if avail = true then .trigramFts else .likeScan)) ∧
    (∀ (db : DB) (e : Entry), rowMatchesStrategy db .fullScan q e = true) ∧
    (∀ (db : DB) (e : Entry),
      rowMatchesStrategy db .likeScan q e = likeMatch (likePattern q) e.name) ∧
    (∀ (db : DB) (e : Entry),
      rowMatchesStrategy db .bigramJoin q e = db.bigram.contains (e.id, q)) := by
  refine ⟨?_, ?_, ?_, ?_, fun _ _ => rfl, fun _ _ => rfl, fun _ _ => rfl⟩
  · intro h
    simp [selectStrategy, h]
  · intro h
    simp [selectStrategy, h]
  · intro h
    simp [selectStrategy, h]
  · intro h
    have h0 : q.length ≠ 0 := by omega
    have h2 : q.length ≠ 2 := by omega
    cases avail with
    | true => simp [selectStrategy, h0, h2, h]
    | false => simp [selectStrategy, h0, h2]

/-- Witness for C2 at concrete queries of each length class. -/
theorem C2_strategy_selection_witness :
    (("ab".toList).length = 2 ∧ selectStrategy true ("ab".toList) = .bigramJoin) ∧
    (3 ≤ ("abc".toList).length ∧
      selectStrategy false ("abc".toList) = (if false = true then .trigramFts else .likeScan)) :=
  ⟨⟨by decide, (C2_strategy_selection true ("ab".toList)).2.2.1 (by decide)⟩,
   ⟨by decide, (C2_strategy_selection false ("abc".toList)).2.2.2.1 (by decide)⟩⟩

/-- C10: the search operation silently maps any sort value outside name,
path, size, mtime to name (returning identical results, never raising),
and the HTTP endpoint maps any unrecognized sort parameter to name. -/
theorem C10_invalid_sort_behaves_as_name :
    (∀ (db : DB) (q : Str) (pf tf : Option Str) (M d off : Nat) (asc : Bool) (s : Str),
        s ∉ ["name".toList, "path".toList, "size".toList, "mtime".toList] →
        search db ⟨q, pf, tf, M, d, off, s, asc⟩ =
          search db ⟨q, pf, tf, M, d, off, "name".toList, asc⟩) ∧
    (∀ s : Str,
        s ∉ ["date_modified".toList, "size".toList, "path".toList, "name".toList] →
        sort_mapping s = "name".toList) := by
  constructor
  · intro db q pf tf M d off asc s hs
    have hcol : sortColumnOf s = sortColumnOf ("name".toList) := by
      rw [sortColumnOf, if_neg hs, sortColumnOf, if_pos (by simp)]
    simp only [search, searchRaises, searchFetched, searchFiltered, searchBase, limitCount]
    rw [hcol]
  · intro s hs
    simp only [List.mem_cons, List.not_mem_nil, or_false, not_or] at hs
    rw [sort_mapping, if_neg hs.1, if_neg hs.2.1, if_neg hs.2.2.1, if_neg hs.2.2.2]

/-- Witness for C10 at a concrete junk sort value. -/
theorem C10_invalid_sort_behaves_as_name_witness :
    (("bogus".toList) ∉ ["name".toList, "path".toList, "size".toList, "mtime".toList] ∧
      search { entries := [], nextId := 1, trigram := [], bigram := [],
               trigramAvailable := true, watch_paths := [], ignore_patterns := [] }
          ⟨"ab".toList, none, none, 10, 0, 0, "bogus".toList, true⟩ =
        search { entries := [], nextId := 1, trigram := [], bigram := [],
                 trigramAvailable := true, watch_paths := [], ignore_patterns := [] }
          ⟨"ab".toList, none, none, 10, 0, 0, "name".toList, true⟩) ∧
    (("bogus".toList) ∉ ["date_modified".toList, "size".toList, "path".toList, "name".toList] ∧
      sort_mapping ("bogus".toList) = "name".toList) :=
  ⟨⟨by decide,
    C10_invalid_sort_behaves_as_name.1 _ ("ab".toList) none none 10 0 0 true ("bogus".toList)
      (by decide)⟩,
   ⟨by decide, C10_invalid_sort_behaves_as_name.2 ("bogus".toList) (by decide)⟩⟩

/-- C9: an admin add-path request for an existing directory that is
covered by a registered (enabled) watch root answers already_indexed and
leaves the store untouched: no registration, no status change, no scan
start. -/
theorem C9_add_covered_path_no_side_effect (db : DB) (p : Str) (now : Int) (w : WatchPath)
    (hw : w ∈ db.watch_paths) (hen : w.enabled = true) (hcov : covers w.path p = true) :
    add_path db true true p now = (.alreadyIndexed, db) := by
  have hidx : is_path_indexed db p = true := by
    unfold is_path_indexed get_covering_watch_path
    refine List.find?_isSome.mpr ⟨w.path, ?_, hcov⟩
    have hmem : w.path ∈ (db.watch_paths.filter (fun w => w.enabled)).map (fun w => w.path) :=
      List.mem_map.mpr ⟨w, List.mem_filter.mpr ⟨hw, hen⟩, rfl⟩
    exact ((List.perm_insertionSort _ _).mem_iff).mpr hmem
  simp [add_path, hidx]

/-- Witness for C9: root /r registered and enabled, request for /r/sub. -/
theorem C9_add_covered_path_no_side_effect_witness :
    (covers ("/r".toList) ("/r/sub".toList) = true ∧
      add_path
        { entries := [], nextId := 1, trigram := [], bigram := [],
          trigramAvailable := true,
          watch_paths := [{ path := "/r".toList, enabled := true, status := "idle".toList,
                            total_files := 0, indexed_files := 0, last_full_scan := none,
                            last_updated := some 0, error_message := none }],
          ignore_patterns := [] }
        true true ("/r/sub".toList) 7 =
      (.alreadyIndexed,
        { entries := [], nextId := 1, trigram := [], bigram := [],
          trigramAvailable := true,
          watch_paths := [{ path := "/r".toList, enabled := true, status := "idle".toList,
                            total_files := 0, indexed_files := 0, last_full_scan := none,
                            last_updated := some 0, error_message := none }],
          ignore_patterns := [] })) :=
  ⟨by decide,
   C9_add_covered_path_no_side_effect _ ("/r/sub".toList) 7
     { path := "/r".toList, enabled := true, status := "idle".toList, total_files := 0,
       indexed_files := 0, last_full_scan := none, last_updated := some 0,
       error_message := none }
     (by decide) rfl (by decide)⟩


/-- C6: for every query, filter, sort, pagination combination, the search
operation returns at most max_results rows, and the returned rows are
exactly the fetched rows surviving the depth filter with the first
offset of them skipped — offset counts filtered rows, not raw rows. -/
theorem C6_max_results_offset (db : DB) (a : SearchArgs) (res : List Entry)
    (h : search db a = some res) :
    res.length ≤ a.max_results ∧
      res = (((searchFetched db a).filter
          (passDepth (searchBase a) a.depth)).drop a.offset).take a.max_results := by
  unfold search at h
  by_cases hr : searchRaises db a = true
  · rw [if_pos hr] at h
    exact absurd h (by simp)
  · rw [if_neg hr] at h
    injection h with h
    constructor
    · rw [← h, collect_eq]
      exact List.length_take_le _ _
    · rw [← h, collect_eq]

/-- A two-entry store used by the C6 witness. -/
def c6DB : DB :=
  { entries :=
      [{ id := 1, path := "/d/a.txt".toList, name := "a.txt".toList,
         parent_path := "/d".toList, type := "file".toList, extension := none,
         size := 0, mtime := 0, indexed_at := 0 },
       { id := 2, path := "/d/b.txt".toList, name := "b.txt".toList,
         parent_path := "/d".toList, type := "file".toList, extension := none,
         size := 0, mtime := 0, indexed_at := 0 }],
    nextId := 3, trigram := [], bigram := [], trigramAvailable := false,
    watch_paths := [], ignore_patterns := [] }

/-- The single row the C6 witness search returns. -/
def c6Res : List Entry :=
  [{ id := 2, path := "/d/b.txt".toList, name := "b.txt".toList,
     parent_path := "/d".toList, type := "file".toList, extension := none,
     size := 0, mtime := 0, indexed_at := 0 }]

/-- Witness for C6: two entries, empty query, max_results 1, offset 1. -/
theorem C6_max_results_offset_witness :
    search c6DB { query := [], max_results := 1, offset := 1 } = some c6Res ∧
      c6Res.length ≤ 1 :=
  ⟨by decide,
   (C6_max_results_offset c6DB { query := [], max_results := 1, offset := 1 } c6Res
     (by decide)).1⟩

/-- Unfolding of the depth check at a present base path. -/
theorem passDepth_some (b : Str) (depth : Nat) (e : Entry) :
    passDepth (some b) depth e =
      (match relParts b e.path with
       | none => false
       | some rel => decide (rel.length ≤ depth)) := rfl

/-- C7: when depth is positive and a path filter is given, every returned
row's path lies under the filter (its parts extend the filter's parts)
and the relative component count is at most depth. -/
theorem C7_depth_filter (db : DB) (a : SearchArgs) (pf : Str) (res : List Entry) (e : Entry)
    (hd : 0 < a.depth) (hpf : truthy a.path_filter = some pf)
    (h : search db a = some res) (he : e ∈ res) :
    (pathParts pf).isPrefixOf (pathParts e.path) = true ∧
      (pathParts e.path).length - (pathParts pf).length ≤ a.depth := by
  unfold search at h
  by_cases hr : searchRaises db a = true
  · rw [if_pos hr] at h
    exact absurd h (by simp)
  · rw [if_neg hr] at h
    injection h with h
    rw [← h, collect_eq] at he
    have hef : e ∈ (searchFetched db a).filter (passDepth (searchBase a) a.depth) :=
      List.mem_of_mem_drop (List.mem_of_mem_take he)
    have hpass := (List.mem_filter.mp hef).2
    have hbase : searchBase a = some pf := by
      unfold searchBase
      rw [if_pos hd, hpf]
    rw [hbase, passDepth_some] at hpass
    rcases hrel : relParts pf e.path with _ | rel
    · rw [hrel] at hpass
      simp at hpass
    · rw [hrel] at hpass
      simp only [decide_eq_true_eq] at hpass
      unfold relParts at hrel
      by_cases hpre : (pathParts pf).isPrefixOf (pathParts e.path) = true
      · refine ⟨hpre, ?_⟩
        rw [if_pos hpre] at hrel
        injection hrel with hrel
        rw [← hrel, List.length_drop] at hpass
        exact hpass
      · rw [if_neg hpre] at hrel
        exact absurd hrel (by simp)

/-- The three-entry store of the C7 witness: depths 1, 2 and 3 under /r. -/
def c7DB : DB :=
  { entries :=
      [{ id := 1, path := "/r/a".toList, name := "a".toList,
         parent_path := "/r".toList, type := "file".toList, extension := none,
         size := 0, mtime := 0, indexed_at := 0 },
       { id := 2, path := "/r/b/c".toList, name := "c".toList,
         parent_path := "/r/b".toList, type := "file".toList, extension := none,
         size := 0, mtime := 0, indexed_at := 0 },
       { id := 3, path := "/r/b/c/d".toList, name := "d".toList,
         parent_path := "/r/b/c".toList, type := "file".toList, extension := none,
         size := 0, mtime := 0, indexed_at := 0 }],
    nextId := 4, trigram := [], bigram := [], trigramAvailable := false,
    watch_paths := [], ignore_patterns := [] }

/-- The depth-2 row of the C7 witness. -/
def c7Entry : Entry :=
  { id := 2, path := "/r/b/c".toList, name := "c".toList,
    parent_path := "/r/b".toList, type := "file".toList, extension := none,
    size := 0, mtime := 0, indexed_at := 0 }

/-- The rows the C7 witness search returns: depths 1 and 2 only. -/
def c7Res : List Entry :=
  [{ id := 1, path := "/r/a".toList, name := "a".toList,
     parent_path := "/r".toList, type := "file".toList, extension := none,
     size := 0, mtime := 0, indexed_at := 0 },
   c7Entry]

/-- Witness for C7: entries at depths 1, 2, 3 under /r; empty query,
path filter /r, depth 2 returns exactly the entries at depths 1 and 2. -/
theorem C7_depth_filter_witness :
    search c7DB { query := [], path_filter := some ("/r".toList), max_results := 10, depth := 2 } =
      some c7Res ∧
    ((pathParts ("/r".toList)).isPrefixOf (pathParts c7Entry.path) = true ∧
      (pathParts c7Entry.path).length - (pathParts ("/r".toList)).length ≤ 2) :=
  ⟨by decide,
   C7_depth_filter c7DB
     { query := [], path_filter := some ("/r".toList), max_results := 10, depth := 2 }
     ("/r".toList) c7Res c7Entry
     (by decide) (by decide) (by decide) (by decide)⟩

/-- The store state of the C5 counterexample: one entry under /r. -/
def removeCexDB : DB :=
  { entries := [{ id := 1, path := "/r/x".toList, name := "x".toList,
                  parent_path := "/r".toList, type := "file".toList, extension := none,
                  size := 0, mtime := 0, indexed_at := 0 }],
    nextId := 2, trigram := [], bigram := [], trigramAvailable := false,
    watch_paths := [], ignore_patterns := [] }

/-- C5 counterexample: remove_path "/R" also deletes the entry at
"/r/x", although neither its path nor its parent_path begins with "/R"
as a string prefix — the SQL LIKE comparison is ASCII-case-insensitive,
so the claim that such entries are unchanged fails. -/
theorem C5_remove_path_counterexample :
    (remove_path removeCexDB ("/R".toList)).entries = [] ∧
    ("/R".toList).isPrefixOf ("/r/x".toList) = false ∧
    ("/R".toList).isPrefixOf ("/r".toList) = false := by decide

/-- C5 (amended): remove_path r deletes exactly the entries whose path or
parent_path matches the SQL LIKE pattern r‖% — prefix comparison that is
ASCII-case-insensitive and treats % and _ appearing in r as wildcards —
then the watch root row whose path equals r exactly, all in one commit.
In particular every entry whose path literally extends r is removed. -/
theorem C5_remove_path_amended (db : DB) (r : Str) :
    (∀ e, e ∈ (remove_path db r).entries ↔
        e ∈ db.entries ∧
          (likeMatch (r ++ ['%']) e.path || likeMatch (r ++ ['%']) e.parent_path) = false) ∧
    (∀ e ∈ db.entries, r <+: e.path → e ∉ (remove_path db r).entries) ∧
    (∀ w, w ∈ (remove_path db r).watch_paths ↔ w ∈ db.watch_paths ∧ w.path ≠ r) := by
  refine ⟨?_, ?_, ?_⟩
  · intro e
    unfold remove_path
    simp only [List.mem_filter, Bool.not_eq_true']
  · intro e hmem hpre
    unfold remove_path
    simp only [List.mem_filter, Bool.not_eq_true']
    intro hcontra
    have hfalse := hcontra.2
    rw [likeMatch_of_leading r e.path hpre] at hfalse
    simp at hfalse
  · intro w
    unfold remove_path
    simp [List.mem_filter]

/-- Witness for C5 (amended): removing root /r deletes the entry /r/x. -/
theorem C5_remove_path_amended_witness :
    (("/r".toList) <+: ("/r/x".toList)) ∧
    ({ id := 1, path := "/r/x".toList, name := "x".toList,
       parent_path := "/r".toList, type := "file".toList, extension := none,
       size := 0, mtime := 0, indexed_at := 0 } : Entry) ∉
      (remove_path removeCexDB ("/r".toList)).entries :=
  ⟨⟨"/x".toList, by decide⟩,
   (C5_remove_path_amended removeCexDB ("/r".toList)).2.1
     { id := 1, path := "/r/x".toList, name := "x".toList,
       parent_path := "/r".toList, type := "file".toList, extension := none,
       size := 0, mtime := 0, indexed_at := 0 }
     (by decide) ⟨"/x".toList, by decide⟩⟩

/-- The store state of the C4 counterexample: one stored ignore pattern. -/
def ignoreCexDB : DB :=
  { entries := [], nextId := 1, trigram := [], bigram := [], trigramAvailable := false,
    watch_paths := [], ignore_patterns := ["node_modules".toList] }

/-- C4 counterexample: with the pattern node_modules, the path
/p/xnode_modulesy/a is ignored by the Crawler (the pattern occurs as a
substring of the path) but not by Store's is_ignored (the pattern matches
neither the whole path nor any single component as a glob): the two
predicates disagree, refuting the claimed equivalence. -/
theorem C4_is_ignored_counterexample :
    should_ignore (["node_modules".toList]) ("/p/xnode_modulesy/a".toList) = true ∧
    is_ignored ignoreCexDB ("/p/xnode_modulesy/a".toList) = false := by decide

/-- C4 (amended): Store's is_ignored and the Crawler's rule are distinct
predicates; for nonempty patterns free of path separators and glob
metacharacters, a path rejected by is_ignored is always rejected by the
Crawler as well, but not conversely. -/
theorem C4_is_ignored_amended (db : DB) (path : Str)
    (hpat : ∀ pat ∈ db.ignore_patterns,
      pat ≠ [] ∧ ¬('/' ∈ pat) ∧ ¬('\\' ∈ pat) ∧ plainGlob pat)
    (hig : is_ignored db path = true) :
    should_ignore db.ignore_patterns path = true := by
  unfold is_ignored at hig
  rw [List.any_eq_true] at hig
  rcases hig with ⟨pat, hmem, hcond⟩
  have hmem2 : pat ∈ db.ignore_patterns :=
    ((List.perm_insertionSort _ _).mem_iff).mp hmem
  have hp := hpat pat hmem2
  have hcontains : containsSub path pat = true := by
    simp only [Bool.or_eq_true, Bool.and_eq_true] at hcond
    rcases hcond with hcond | hcond
    · have heq := (globMatch_plain pat path hp.2.2.2).mp hcond
      rw [heq]
      exact containsSub_refl path
    · rcases hcond with ⟨_, hparts⟩
      rw [List.any_eq_true] at hparts
      rcases hparts with ⟨part, hpartmem, hpartglob⟩
      have heq := (globMatch_plain pat part hp.2.2.2).mp hpartglob
      have hroot : part ≠ ['/'] := by
        intro hr
        rw [hr] at heq
        exact hp.2.1 (by rw [heq]; simp)
      have hinf : part <:+: path := mem_pathParts_infix path part hpartmem hroot
      rw [containsSub_iff, ← heq] at *
      exact hinf
  unfold should_ignore
  rw [List.any_eq_true]
  refine ⟨pat, hmem2, ?_⟩
  simp [hp.1, hcontains]

/-- Witness for C4 (amended): pattern node_modules, path
/p/node_modules/x is rejected by is_ignored, hence by the Crawler. -/
theorem C4_is_ignored_amended_witness :
    (is_ignored ignoreCexDB ("/p/node_modules/x".toList) = true ∧
      should_ignore ignoreCexDB.ignore_patterns ("/p/node_modules/x".toList) = true) :=
  ⟨by decide,
   C4_is_ignored_amended ignoreCexDB ("/p/node_modules/x".toList) (by decide) (by decide)⟩


/-- Distinct paths across the entry rows, as the UNIQUE constraint on the
path column guarantees for every reachable table state. -/
def pathsWF (db : DB) : Prop := db.entries.Pairwise (fun a b => a.path ≠ b.path)

/-- Some entry row has the given path. -/
def hasPath (db : DB) (p : Str) : Prop := ∃ e ∈ db.entries, e.path = p

theorem add_file_pathsWF (db : DB) (p n pp ft : Str) (ex : Option Str) (sz mt now : Int)
    (hwf : pathsWF db) : pathsWF (add_file db p n pp ft ex sz mt now) := by
  unfold pathsWF add_file at *
  rw [List.pairwise_append]
  refine ⟨List.Pairwise.sublist (List.filter_sublist _) hwf, ?_, ?_⟩
  · simp
  · intro a ha b hb
    rw [List.mem_singleton] at hb
    subst hb
    have hne := (List.mem_filter.mp ha).2
    simp only [Bool.not_eq_true', beq_eq_false_iff_ne, ne_eq] at hne
    simpa using hne

theorem add_file_hasPath_self (db : DB) (p n pp ft : Str) (ex : Option Str) (sz mt now : Int) :
    hasPath (add_file db p n pp ft ex sz mt now) p :=
  ⟨_, List.mem_append_right _ (List.mem_singleton_self _), rfl⟩

theorem add_file_hasPath_mono (db : DB) (q p n pp ft : Str) (ex : Option Str) (sz mt now : Int)
    (h : hasPath db q) : hasPath (add_file db p n pp ft ex sz mt now) q := by
  by_cases hqp : q = p
  · subst hqp
    exact add_file_hasPath_self db q n pp ft ex sz mt now
  · rcases h with ⟨e, he, hep⟩
    refine ⟨e, List.mem_append_left _ ?_, hep⟩
    rw [List.mem_filter]
    refine ⟨he, ?_⟩
    simp only [Bool.not_eq_true', beq_eq_false_iff_ne, ne_eq, hep]
    exact hqp

theorem filter_out_path_length (p : Str) :
    ∀ (l : List Entry), l.Pairwise (fun a b => a.path ≠ b.path) →
      (∃ e ∈ l, e.path = p) →
      (l.filter (fun e => !(e.path == p))).length + 1 = l.length := by
  intro l
  induction l with
  | nil =>
    rintro _ ⟨e, he, _⟩
    simp at he
  | cons a l ih =>
    intro hwf hex
    rw [List.pairwise_cons] at hwf
    by_cases hap : a.path = p
    · rw [List.filter_cons, if_neg (by simp [hap])]
      have hrest : l.filter (fun e => !(e.path == p)) = l := by
        rw [List.filter_eq_self]
        intro b hb
        have hne := hwf.1 b hb
        rw [hap] at hne
        simp only [Bool.not_eq_true', beq_eq_false_iff_ne, ne_eq]
        exact fun hbp => hne hbp.symm
      rw [hrest]
      simp
    · rcases hex with ⟨e, he, hep⟩
      rcases List.mem_cons.mp he with heq | he2
      · exact absurd (by rw [← heq]; exact hep) hap
      · rw [List.filter_cons, if_pos (by simp [hap])]
        simp only [List.length_cons]
        rw [← ih hwf.2 ⟨e, he2, hep⟩]

theorem add_file_length_of_hasPath (db : DB) (p n pp ft : Str) (ex : Option Str)
    (sz mt now : Int) (hwf : pathsWF db) (h : hasPath db p) :
    (add_file db p n pp ft ex sz mt now).entries.length = db.entries.length := by
  unfold add_file
  simp only [List.length_append, List.length_cons, List.length_nil]
  have := filter_out_path_length p db.entries hwf h
  omega

theorem batch_add_files_nil (db : DB) (now : Int) : batch_add_files db [] now = db := rfl

theorem batch_add_files_cons (db : DB) (f : FileRecord) (fs : List FileRecord) (now : Int) :
    batch_add_files db (f :: fs) now =
      batch_add_files
        (add_file db f.path f.name f.parent_path f.file_type f.extension f.size f.mtime now)
        fs now := rfl

theorem batch_add_files_pathsWF (files : List FileRecord) :
    ∀ (db : DB) (now : Int), pathsWF db → pathsWF (batch_add_files db files now) := by
  induction files with
  | nil =>
    intro db now hwf
    exact hwf
  | cons f fs ih =>
    intro db now hwf
    rw [batch_add_files_cons]
    exact ih _ now (add_file_pathsWF db f.path f.name f.parent_path f.file_type
      f.extension f.size f.mtime now hwf)

theorem batch_add_files_hasPath_mono (files : List FileRecord) :
    ∀ (db : DB) (q : Str) (now : Int), hasPath db q →
      hasPath (batch_add_files db files now) q := by
  induction files with
  | nil =>
    intro db q now h
    exact h
  | cons f fs ih =>
    intro db q now h
    rw [batch_add_files_cons]
    exact ih _ q now (add_file_hasPath_mono db q f.path f.name f.parent_path f.file_type
      f.extension f.size f.mtime now h)

theorem batch_add_files_hasPath_all (files : List FileRecord) :
    ∀ (db : DB) (now : Int) (f : FileRecord), f ∈ files →
      hasPath (batch_add_files db files now) f.path := by
  induction files with
  | nil =>
    intro db now f hf
    simp at hf
  | cons g fs ih =>
    intro db now f hf
    rw [batch_add_files_cons]
    rcases List.mem_cons.mp hf with heq | hf2
    · rw [heq]
      exact batch_add_files_hasPath_mono fs _ g.path now
        (add_file_hasPath_self db g.path g.name g.parent_path g.file_type
          g.extension g.size g.mtime now)
    · exact ih _ now f hf2

theorem batch_add_files_length_stable (files : List FileRecord) :
    ∀ (db : DB) (now : Int), pathsWF db → (∀ f ∈ files, hasPath db f.path) →
      (batch_add_files db files now).entries.length = db.entries.length := by
  induction files with
  | nil =>
    intro db now _ _
    rfl
  | cons f fs ih =>
    intro db now hwf hall
    rw [batch_add_files_cons]
    rw [ih _ now
      (add_file_pathsWF db f.path f.name f.parent_path f.file_type f.extension
        f.size f.mtime now hwf)
      (fun g hg => add_file_hasPath_mono db g.path f.path f.name f.parent_path f.file_type
        f.extension f.size f.mtime now (hall g (by simp [hg])))]
    exact add_file_length_of_hasPath db f.path f.name f.parent_path f.file_type f.extension
      f.size f.mtime now hwf (hall f (by simp))

/-- C8: the entry path is a unique key. In a state with pairwise distinct
paths, an add_file at an existing path replaces that row rather than
adding one (the row count is unchanged), and a second batch_add_files of
the same record list leaves the row count equal to what it was after the
first call. -/
theorem C8_path_unique_count_stable (db : DB) (hwf : pathsWF db) :
    (∀ (p n pp ft : Str) (ex : Option Str) (sz mt now : Int),
       hasPath db p →
       (add_file db p n pp ft ex sz mt now).entries.length = db.entries.length) ∧
    (∀ (files : List FileRecord) (now now2 : Int),
       (batch_add_files (batch_add_files db files now) files now2).entries.length =
         (batch_add_files db files now).entries.length) := by
  constructor
  · intro p n pp ft ex sz mt now h
    exact add_file_length_of_hasPath db p n pp ft ex sz mt now hwf h
  · intro files now now2
    exact batch_add_files_length_stable files _ now2
      (batch_add_files_pathsWF files db now hwf)
      (fun f hf => batch_add_files_hasPath_all files db now f hf)

/-- Witness for C8: an empty store, one record added twice in batches. -/
theorem C8_path_unique_count_stable_witness :
    pathsWF
      { entries := [], nextId := 1, trigram := [], bigram := [],
        trigramAvailable := true, watch_paths := [], ignore_patterns := [] } ∧
    (batch_add_files
        (batch_add_files
          { entries := [], nextId := 1, trigram := [], bigram := [],
            trigramAvailable := true, watch_paths := [], ignore_patterns := [] }
          [{ path := "/d/a".toList, name := "a".toList, parent_path := "/d".toList,
             file_type := "file".toList, extension := none, size := 0, mtime := 0 }] 0)
        [{ path := "/d/a".toList, name := "a".toList, parent_path := "/d".toList,
           file_type := "file".toList, extension := none, size := 0, mtime := 0 }] 1).entries.length =
      (batch_add_files
        { entries := [], nextId := 1, trigram := [], bigram := [],
          trigramAvailable := true, watch_paths := [], ignore_patterns := [] }
        [{ path := "/d/a".toList, name := "a".toList, parent_path := "/d".toList,
           file_type := "file".toList, extension := none, size := 0, mtime := 0 }] 0).entries.length :=
  ⟨by simp [pathsWF],
   (C8_path_unique_count_stable _ (by simp [pathsWF])).2
     [{ path := "/d/a".toList, name := "a".toList, parent_path := "/d".toList,
        file_type := "file".toList, extension := none, size := 0, mtime := 0 }] 0 1⟩


/-- Distinct rowids across the entry rows, as the INTEGER PRIMARY KEY
guarantees for every reachable table state. -/
def idsWF (db : DB) : Prop := db.entries.Pairwise (fun a b => a.id ≠ b.id)

theorem rebuild_entries_eq (db : DB) :
    (rebuild_trigram_index (rebuild_bigram_index db)).entries = db.entries := by
  unfold rebuild_trigram_index rebuild_bigram_index
  by_cases h : db.trigramAvailable = true <;> simp [h]

theorem rebuild_avail_eq (db : DB) :
    (rebuild_trigram_index (rebuild_bigram_index db)).trigramAvailable =
      db.trigramAvailable := by
  unfold rebuild_trigram_index rebuild_bigram_index
  by_cases h : db.trigramAvailable = true <;> simp [h]

theorem rebuild_bigram_eq (db : DB) :
    (rebuild_trigram_index (rebuild_bigram_index db)).bigram = derivedBigram db.entries := by
  unfold rebuild_trigram_index rebuild_bigram_index
  by_cases h : db.trigramAvailable = true <;> simp [h]

theorem rebuild_trigram_eq (db : DB) (h : db.trigramAvailable = true) :
    (rebuild_trigram_index (rebuild_bigram_index db)).trigram =
      derivedTrigram db.entries := by
  unfold rebuild_trigram_index rebuild_bigram_index
  simp [h]

/-- A search without filters, pagination inside the bound and a valid
query returns exactly the table rows matched by the selected strategy. -/
theorem search_simple (db : DB) (q : Str) (M : Nat)
    (hM : db.entries.length ≤ M) (hodd : oddQuote q = false) :
    ∃ res, search db { query := q, max_results := M } = some res ∧
      ∀ e, e ∈ res ↔ e ∈ db.entries ∧
        rowMatchesStrategy db (selectStrategy db.trigramAvailable q) q e = true := by
  have hraise : searchRaises db { query := q, max_results := M } = false := by
    simp [searchRaises, hodd]
  unfold search
  rw [if_neg (by rw [hraise]; simp)]
  refine ⟨_, rfl, ?_⟩
  have hlen2 : (sortRows (sortColumnOf ("name".toList)) true
      (db.entries.filter
        (rowMatchesStrategy db (selectStrategy db.trigramAvailable q) q))).length ≤ M := by
    rw [(sortRows_perm _ _ _).length_eq]
    exact le_trans (List.length_filter_le _ _) hM
  have hres : collect
      (passDepth (searchBase { query := q, max_results := M })
        ({ query := q, max_results := M } : SearchArgs).depth)
      ({ query := q, max_results := M } : SearchArgs).max_results
      ({ query := q, max_results := M } : SearchArgs).offset
      (searchFetched db { query := q, max_results := M }) =
      sortRows (sortColumnOf ("name".toList)) true
        (db.entries.filter
          (rowMatchesStrategy db (selectStrategy db.trigramAvailable q) q)) := by
    rw [collect_eq]
    dsimp only
    rw [show searchFetched db { query := q, max_results := M } =
        (sortRows (sortColumnOf ("name".toList)) true
          (db.entries.filter
            (rowMatchesStrategy db (selectStrategy db.trigramAvailable q) q))).take M
      from rfl]
    rw [List.take_of_length_le hlen2]
    have hpassall : ∀ a ∈ (sortRows (sortColumnOf ("name".toList)) true
        (db.entries.filter
          (rowMatchesStrategy db (selectStrategy db.trigramAvailable q) q))),
        passDepth (searchBase { query := q, max_results := M }) 0 a = true :=
      fun a _ => rfl
    rw [List.filter_eq_self.mpr hpassall]
    rw [List.drop_zero, List.take_of_length_le hlen2]
  intro e
  rw [hres, (sortRows_perm _ _ _).mem_iff, List.mem_filter]

/-- The one-entry store of the C1 counterexample, name in upper case. -/
def c1CexDB : DB :=
  { entries := [{ id := 1, path := "/ABC".toList, name := "ABC".toList,
                  parent_path := "/".toList, type := "file".toList, extension := none,
                  size := 0, mtime := 0, indexed_at := 0 }],
    nextId := 2, trigram := [], bigram := [], trigramAvailable := true,
    watch_paths := [], ignore_patterns := [] }

/-- C1 counterexample: after both rebuilds, the length-3 query abc
returns the entry named ABC although ABC does not contain abc as a
contiguous substring — the FTS5 trigram tokenizer folds case, so the
result set differs from the brute-force contains result. -/
theorem C1_ngram_search_counterexample :
    search (rebuild_trigram_index (rebuild_bigram_index c1CexDB))
        { query := "abc".toList, max_results := 100 } =
      some [{ id := 1, path := "/ABC".toList, name := "ABC".toList,
              parent_path := "/".toList, type := "file".toList, extension := none,
              size := 0, mtime := 0, indexed_at := 0 }] ∧
    containsSub ("ABC".toList) ("abc".toList) = false := by decide

/-- C1 (amended): after rebuild_bigram_index and rebuild_trigram_index,
for a query free of LIKE metacharacters and double quotes and a
max_results bound of at least the table size, search returns exactly the
set given by: for length-2 queries, the entries whose name contains the
query case-sensitively (the bigram join compares with the BINARY
collation); for length-3 queries, the entries whose ASCII-case-folded
name contains the case-folded query (the FTS5 trigram tokenizer folds
case, and the LIKE fallback used when trigram is unavailable is likewise
ASCII-case-insensitive). -/
theorem C1_ngram_search_amended (db : DB) (q : Str) (M : Nat)
    (hwf : idsWF db)
    (hM : db.entries.length ≤ M)
    (hplain : ∀ c ∈ q, c ≠ '%' ∧ c ≠ '_' ∧ c ≠ '\"')
    (hlen : q.length = 2 ∨ q.length = 3) :
    ∃ res,
      search (rebuild_trigram_index (rebuild_bigram_index db))
          { query := q, max_results := M } = some res ∧
      ∀ e, e ∈ res ↔ e ∈ db.entries ∧
        (if q.length = 2 then containsSub e.name q = true
         else containsSub (lowerStr e.name) (lowerStr q) = true) := by
  have hq : '\"' ∉ q := fun hc => ((hplain _ hc).2.2) rfl
  have hodd := oddQuote_eq_false q hq
  have hent := rebuild_entries_eq db
  have hav := rebuild_avail_eq db
  have hM2 : (rebuild_trigram_index (rebuild_bigram_index db)).entries.length ≤ M := by
    rw [hent]
    exact hM
  rcases search_simple _ q M hM2 hodd with ⟨res, hsearch, hmem⟩
  refine ⟨res, hsearch, ?_⟩
  intro e
  rw [hmem e, hent]
  refine and_congr_right (fun he => ?_)
  rcases hlen with h2 | h3
  · rw [if_pos h2]
    have hstrat : selectStrategy
        (rebuild_trigram_index (rebuild_bigram_index db)).trigramAvailable q =
        Strategy.bigramJoin := by
      simp [selectStrategy, h2]
    rw [hstrat]
    show ((rebuild_trigram_index (rebuild_bigram_index db)).bigram.contains (e.id, q)) = true ↔ _
    rw [List.elem_iff, rebuild_bigram_eq, mem_derivedBigram]
    constructor
    · rintro ⟨e2, he2, hid, hg⟩
      have heq : e2 = e := idsInj db.entries hwf e2 he2 e he hid
      rw [heq] at hg
      unfold extract_bigrams at hg
      rw [mem_ngrams 2 (by omega)] at hg
      rw [containsSub_iff]
      exact hg.2
    · intro hcon
      refine ⟨e, he, rfl, ?_⟩
      unfold extract_bigrams
      rw [mem_ngrams 2 (by omega)]
      exact ⟨h2, (containsSub_iff _ _).mp hcon⟩
  · rw [if_neg (by omega)]
    by_cases havail : db.trigramAvailable = true
    · have hstrat : selectStrategy
          (rebuild_trigram_index (rebuild_bigram_index db)).trigramAvailable q =
          Strategy.trigramFts := by
        rw [hav, havail]
        simp [selectStrategy, h3]
      rw [hstrat]
      have hqt : queryTrigrams q = [lowerStr q] := by
        unfold queryTrigrams
        rw [unescapeQuotes_eq_self q hq]
        exact ngrams_self 3 (lowerStr q) (by omega) (by simp [lowerStr, h3])
      show (queryTrigrams q).all
          (fun t => (rebuild_trigram_index (rebuild_bigram_index db)).trigram.contains
            (e.id, t)) = true ↔ _
      rw [hqt]
      simp only [List.all_cons, List.all_nil, Bool.and_true]
      rw [List.elem_iff, rebuild_trigram_eq db havail, mem_derivedTrigram]
      constructor
      · rintro ⟨e2, he2, hid, hg⟩
        have heq : e2 = e := idsInj db.entries hwf e2 he2 e he hid
        rw [heq] at hg
        unfold trigramTokens at hg
        rw [List.mem_dedup, mem_ngrams 3 (by omega)] at hg
        rw [containsSub_iff]
        exact hg.2
      · intro hcon
        refine ⟨e, he, rfl, ?_⟩
        unfold trigramTokens
        rw [List.mem_dedup, mem_ngrams 3 (by omega)]
        exact ⟨by simp [lowerStr, h3], (containsSub_iff _ _).mp hcon⟩
    · have hstrat : selectStrategy
          (rebuild_trigram_index (rebuild_bigram_index db)).trigramAvailable q =
          Strategy.likeScan := by
        rw [hav]
        simp only [Bool.not_eq_true] at havail
        rw [havail]
        simp [selectStrategy, h3]
      rw [hstrat]
      show likeMatch (likePattern q) e.name = true ↔ _
      exact likeMatch_likePattern_iff q e.name
        (fun c hc => ⟨(hplain c hc).1, (hplain c hc).2.1⟩)

/-- The three-entry corpus of the C1 witness. -/
def c1DB : DB :=
  { entries :=
      [{ id := 1, path := "/d/hello.txt".toList, name := "hello.txt".toList,
         parent_path := "/d".toList, type := "file".toList, extension := some (".txt".toList),
         size := 1, mtime := 0, indexed_at := 0 },
       { id := 2, path := "/d/help.md".toList, name := "help.md".toList,
         parent_path := "/d".toList, type := "file".toList, extension := some (".md".toList),
         size := 1, mtime := 0, indexed_at := 0 },
       { id := 3, path := "/d/world.txt".toList, name := "world.txt".toList,
         parent_path := "/d".toList, type := "file".toList, extension := some (".txt".toList),
         size := 1, mtime := 0, indexed_at := 0 }],
    nextId := 4, trigram := [], bigram := [], trigramAvailable := true,
    watch_paths := [], ignore_patterns := [] }

/-- Witness for C1 (amended) at the he corpus of the spec scenario. -/
theorem C1_ngram_search_amended_witness :
    (idsWF c1DB ∧ c1DB.entries.length ≤ 100 ∧
      (∀ c ∈ ("he".toList), c ≠ '%' ∧ c ≠ '_' ∧ c ≠ '\"') ∧
      (("he".toList).length = 2 ∨ ("he".toList).length = 3)) ∧
    (∃ res,
      search (rebuild_trigram_index (rebuild_bigram_index c1DB))
          { query := "he".toList, max_results := 100 } = some res ∧
      ∀ e, e ∈ res ↔ e ∈ c1DB.entries ∧
        (if ("he".toList).length = 2 then containsSub e.name ("he".toList) = true
         else containsSub (lowerStr e.name) (lowerStr ("he".toList)) = true)) :=
  ⟨⟨by simp [idsWF]; decide, by decide, by decide, by decide⟩,
   C1_ngram_search_amended c1DB ("he".toList) 100 (by simp [idsWF]; decide) (by decide)
     (by decide) (by decide)⟩


/-- The trigram doclist is exactly the table derived from the entry rows. -/
def trigramExact (db : DB) : Prop := db.trigram.Perm (derivedTrigram db.entries)

/-- The bigram table is exactly the table derived from the entry rows. -/
def bigramExact (db : DB) : Prop := db.bigram.Perm (derivedBigram db.entries)

/-- The consistency predicate exactly as the claim states it, for one
n-gram table: every unique n-gram of every entry name has exactly one
row linking it to the entry, and no row refers to a nonexistent entry. -/
def ngramLinked (table : List (Nat × Str)) (grams : Str → List Str)
    (entries : List Entry) : Bool :=
  entries.all (fun e => ((grams e.name).dedup).all (fun t => table.count (e.id, t) == 1)) &&
    table.all (fun pr => entries.any (fun e => e.id == pr.1))

/-- The claim's store-wide consistency: both n-gram tables linked. -/
def storeNgramConsistent (db : DB) : Bool :=
  ngramLinked db.trigram (fun nm => ngrams 3 nm) db.entries &&
    ngramLinked db.bigram (fun nm => ngrams 2 nm) db.entries

theorem flatMap_map_comp {α β γ : Type} (l : List α) (f : α → β) (g : β → List γ) :
    (l.map f).flatMap g = l.flatMap (fun x => g (f x)) := by
  induction l with
  | nil => rfl
  | cons a l ih => rw [List.map_cons, List.flatMap_cons, List.flatMap_cons, ih]

theorem add_file_entries_fresh (db : DB) (p n pp ft : Str) (ex : Option Str)
    (sz mt now : Int) (hfresh : ∀ e ∈ db.entries, e.path ≠ p) :
    (add_file db p n pp ft ex sz mt now).entries =
      db.entries ++ [{ id := db.nextId, path := p, name := n, parent_path := pp,
                       type := ft, extension := ex, size := sz, mtime := mt,
                       indexed_at := now }] := by
  unfold add_file
  dsimp only
  rw [List.filter_eq_self.mpr (fun e he => by
    simp only [Bool.not_eq_true', beq_eq_false_iff_ne, ne_eq]
    exact hfresh e he)]

theorem add_file_trigramExact (db : DB) (p n pp ft : Str) (ex : Option Str) (sz mt now : Int)
    (hav : db.trigramAvailable = true) (hfresh : ∀ e ∈ db.entries, e.path ≠ p)
    (h : trigramExact db) : trigramExact (add_file db p n pp ft ex sz mt now) := by
  unfold trigramExact at *
  rw [add_file_entries_fresh db p n pp ft ex sz mt now hfresh]
  have htri : (add_file db p n pp ft ex sz mt now).trigram =
      db.trigram ++ (trigramTokens n).map (fun t => (db.nextId, t)) := by
    unfold add_file
    dsimp only
    rw [if_pos hav]
  rw [htri, derivedTrigram_eq_flatMap, List.flatMap_append, ← derivedTrigram_eq_flatMap]
  have hnew : ([{ id := db.nextId, path := p, name := n, parent_path := pp,
                  type := ft, extension := ex, size := sz, mtime := mt,
                  indexed_at := now }] : List Entry).flatMap entryTriPairs =
      (trigramTokens n).map (fun t => (db.nextId, t)) := by
    simp [entryTriPairs]
  rw [hnew]
  exact h.append (List.Perm.refl _)

theorem remove_file_trigramExact (db : DB) (p : Str)
    (hav : db.trigramAvailable = true) (hwf : idsWF db)
    (h : trigramExact db) : trigramExact (remove_file db p) := by
  unfold trigramExact remove_file at *
  dsimp only
  rw [if_pos hav]
  refine (h.filter _).trans ?_
  rw [derivedTrigram_filter_del (fun e => e.path == p)
    (db.entries.filter (fun e => e.path == p)) db.entries
    (fun a ha d hd hid => idsInj db.entries hwf a ha d (List.mem_of_mem_filter hd) hid)
    (fun a ha => by
      rw [List.mem_filter]
      simp [ha])]

theorem update_file_trigramExact (db : DB) (p : Str) (u : UpdateFields)
    (hav : db.trigramAvailable = true) (hwf : idsWF db) (hpath : u.path = none)
    (h : trigramExact db) : trigramExact (update_file db p u) := by
  unfold update_file
  by_cases hempty : u.isEmpty = true
  · rw [if_pos hempty]
    exact h
  · rw [if_neg hempty]
    unfold trigramExact at *
    dsimp only
    rw [if_pos hav]
    have h1 : (db.trigram.filter (fun pr =>
        !((db.entries.filter (fun e => e.path == p)).any
          (fun d => pr.1 == d.id && (trigramTokens d.name).contains pr.2)))).Perm
        (derivedTrigram (db.entries.filter (fun e => !(e.path == p)))) := by
      refine (h.filter _).trans ?_
      rw [derivedTrigram_filter_del (fun e => e.path == p)
        (db.entries.filter (fun e => e.path == p)) db.entries
        (fun a ha d hd hid => idsInj db.entries hwf a ha d (List.mem_of_mem_filter hd) hid)
        (fun a ha => by
          rw [List.mem_filter]
          simp [ha])]
    have h2 : derivedTrigram (db.entries.map
        (fun e => if e.path == p then applyUpdate u e else e)) =
        db.entries.flatMap (fun x =>
          entryTriPairs (if x.path == p then applyUpdate u x else x)) := by
      rw [derivedTrigram_eq_flatMap, flatMap_map_comp]
    have h3 := flatMap_split_perm db.entries (fun e => e.path == p)
      (fun x => entryTriPairs (if x.path == p then applyUpdate u x else x))
    have h4 : (db.entries.filter (fun x => !(x.path == p))).flatMap
        (fun x => entryTriPairs (if x.path == p then applyUpdate u x else x)) =
        derivedTrigram (db.entries.filter (fun e => !(e.path == p))) := by
      rw [derivedTrigram_eq_flatMap]
      refine flatMap_congr_mem _ _ _ ?_
      intro x hx
      have hxp := (List.mem_filter.mp hx).2
      simp only [Bool.not_eq_true'] at hxp
      rw [if_neg (by simp [hxp])]
    have h5 : (db.entries.filter (fun e => e.path == p)).flatMap
        (fun x => entryTriPairs (if x.path == p then applyUpdate u x else x)) =
        (db.entries.filter (fun e => e.path == p)).flatMap
          (fun d => (trigramTokens (applyUpdate u d).name).map (fun t => (d.id, t))) := by
      refine flatMap_congr_mem _ _ _ ?_
      intro x hx
      have hxp := (List.mem_filter.mp hx).2
      rw [if_pos hxp]
      rfl
    rw [h2]
    refine List.Perm.trans ?_ h3.symm
    rw [h4, h5]
    exact h1.append (List.Perm.refl _)

theorem batch_add_files_trigramExact (files : List FileRecord) :
    ∀ (db : DB) (now : Int), db.trigramAvailable = true →
      files.Pairwise (fun f g => f.path ≠ g.path) →
      (∀ f ∈ files, ∀ e ∈ db.entries, e.path ≠ f.path) →
      trigramExact db → trigramExact (batch_add_files db files now) := by
  induction files with
  | nil =>
    intro db now _ _ _ h
    exact h
  | cons f fs ih =>
    intro db now hav hpw hfresh h
    rw [batch_add_files_cons]
    rw [List.pairwise_cons] at hpw
    refine ih _ now hav hpw.2 ?_ ?_
    · intro g hg e he
      rw [add_file_entries_fresh db f.path f.name f.parent_path f.file_type f.extension
        f.size f.mtime now (fun e2 he2 => hfresh f (by simp) e2 he2)] at he
      rcases List.mem_append.mp he with he | he
      · exact hfresh g (by simp [hg]) e he
      · rw [List.mem_singleton] at he
        subst he
        exact fun hc => (hpw.1 g hg) hc
    · exact add_file_trigramExact db f.path f.name f.parent_path f.file_type f.extension
        f.size f.mtime now hav (fun e2 he2 => hfresh f (by simp) e2 he2) h

/-- The empty store of the C3 counterexample. -/
def c3CexDB : DB :=
  { entries := [], nextId := 1, trigram := [], bigram := [], trigramAvailable := true,
    watch_paths := [], ignore_patterns := [] }

/-- C3 counterexample: the empty store satisfies the claimed invariant,
but a single add_file of a file named ab breaks it — the new entry's
unique 2-gram has no file_name_bigrams row, because add_file never
touches the bigram table (only rebuild_bigram_index fills it). -/
theorem C3_ngram_consistency_counterexample :
    storeNgramConsistent c3CexDB = true ∧
    storeNgramConsistent
        (add_file c3CexDB ("/ab".toList) ("ab".toList) ("/".toList) ("file".toList)
          none 0 0 0) = false := by decide

/-- C3 (amended): when the trigram index is available, the trigger-kept
TrigramIndex stays exactly the table derived from the entry rows across
add_file of a fresh path, remove_file, update_file without a path
change, and batch_add_files of fresh distinct paths (a replacing add
would instead orphan the replaced rowid's tokens, because REPLACE does
not fire delete triggers); the BigramIndex is not maintained by any
write — it is exact only right after rebuild_bigram_index. -/
theorem C3_ngram_consistency_amended :
    (∀ (db : DB) (p n pp ft : Str) (ex : Option Str) (sz mt now : Int),
       db.trigramAvailable = true → (∀ e ∈ db.entries, e.path ≠ p) → trigramExact db →
       trigramExact (add_file db p n pp ft ex sz mt now)) ∧
    (∀ (db : DB) (p : Str), db.trigramAvailable = true → idsWF db → trigramExact db →
       trigramExact (remove_file db p)) ∧
    (∀ (db : DB) (p : Str) (u : UpdateFields), db.trigramAvailable = true → idsWF db →
       u.path = none → trigramExact db → trigramExact (update_file db p u)) ∧
    (∀ (db : DB) (files : List FileRecord) (now : Int), db.trigramAvailable = true →
       files.Pairwise (fun f g => f.path ≠ g.path) →
       (∀ f ∈ files, ∀ e ∈ db.entries, e.path ≠ f.path) → trigramExact db →
       trigramExact (batch_add_files db files now)) ∧
    (∀ db : DB, bigramExact (rebuild_bigram_index db)) :=
  ⟨fun db p n pp ft ex sz mt now hav hfresh h =>
     add_file_trigramExact db p n pp ft ex sz mt now hav hfresh h,
   fun db p hav hwf h => remove_file_trigramExact db p hav hwf h,
   fun db p u hav hwf hpath h => update_file_trigramExact db p u hav hwf hpath h,
   fun db files now hav hpw hfresh h =>
     batch_add_files_trigramExact files db now hav hpw hfresh h,
   fun db => List.Perm.refl _⟩

/-- The one-entry store of the C3 witness, with its trigram row. -/
def c3WitDB : DB :=
  { entries := [{ id := 1, path := "/abc".toList, name := "abc".toList,
                  parent_path := "/".toList, type := "file".toList, extension := none,
                  size := 0, mtime := 0, indexed_at := 0 }],
    nextId := 2, trigram := [(1, "abc".toList)], bigram := [],
    trigramAvailable := true, watch_paths := [], ignore_patterns := [] }

/-- Witness for C3 (amended): removing the only entry of a consistent
one-row store keeps the trigram doclist exact. -/
theorem C3_ngram_consistency_amended_witness :
    (c3WitDB.trigramAvailable = true ∧ idsWF c3WitDB ∧ trigramExact c3WitDB) ∧
    trigramExact (remove_file c3WitDB ("/abc".toList)) :=
  ⟨⟨rfl, by unfold idsWF; decide,
    by unfold trigramExact; exact List.Perm.of_eq (by decide)⟩,
   C3_ngram_consistency_amended.2.1 c3WitDB ("/abc".toList) rfl
     (by unfold idsWF; decide)
     (by unfold trigramExact; exact List.Perm.of_eq (by decide))⟩

end FileIndex
